import Mathlib

/-!
Verification of the test-rig forecasting pipeline components.

The development shallowly embeds the three pipeline components
(`read_raw_data`, `split_data`, `train`) as executable Lean functions over
lists of rationals, and proves the stated properties about them.
-/

/-! ## The `split_data` component

`split_data` reads the processed table and computes
`train_df = processed_df.loc[:int(len(processed_df) * train_data_size)]` and
`test_df = processed_df.loc[int(len(processed_df) * train_data_size):]`.
With the default integer range index, `.loc[:k]` keeps the rows with index
label at most `k` (endpoint inclusive) and `.loc[k:]` keeps the rows with
index label at least `k`.
-/

/-- Python `int()` applied to a real quantity: truncation toward zero. -/
def pyTrunc (q : ℚ) : ℤ := if 0 ≤ q then ⌊q⌋ else ⌈q⌉

/-- Embedding of `split_data`: the cut label is `k = int(n * train_data_size)`;
the train part keeps the rows with positional label `≤ k`, the test part the
rows with positional label `≥ k`. -/
def split_data {α : Type} (rows : List α) (f : ℚ) : List α × List α :=
  let k : ℤ := pyTrunc ((rows.length : ℚ) * f)
  (rows.take (k + 1).toNat, rows.drop k.toNat)

theorem pyTrunc_of_nonneg {q : ℚ} (h : 0 ≤ q) : pyTrunc q = ⌊q⌋ := by
  simp [pyTrunc, h]

theorem split_cut_lt {α : Type} (rows : List α) (f : ℚ)
    (hn : 1 ≤ rows.length) (hf1 : f < 1) :
    (⌊(rows.length : ℚ) * f⌋).toNat < rows.length := by
  have hq : ((rows.length : ℚ) * f) < (rows.length : ℚ) := by
    have hpos : (0 : ℚ) < (rows.length : ℚ) := by
      exact_mod_cast Nat.lt_of_lt_of_le Nat.zero_lt_one hn
    calc (rows.length : ℚ) * f < (rows.length : ℚ) * 1 := by
          exact mul_lt_mul_of_pos_left hf1 hpos
      _ = (rows.length : ℚ) := mul_one _
  have hfl : ⌊(rows.length : ℚ) * f⌋ < (rows.length : ℤ) := by
    rw [Int.floor_lt]
    exact_mod_cast hq
  omega

/-- C2: for a table of `n ≥ 1` rows and `f ∈ (0,1)`, with `k = ⌊n * f⌋`,
the train part is rows `[0, k]` inclusive, the test part is rows `[k, n)`,
their lengths are `k + 1` and `n - k`, and row `k` appears as both the last
train row and the first test row. -/
theorem split_data_spec {α : Type} (rows : List α) (f : ℚ)
    (hn : 1 ≤ rows.length) (hf0 : 0 < f) (hf1 : f < 1) :
    (split_data rows f).1 = rows.take ((⌊(rows.length : ℚ) * f⌋).toNat + 1) ∧
    (split_data rows f).2 = rows.drop (⌊(rows.length : ℚ) * f⌋).toNat ∧
    (split_data rows f).1.length = (⌊(rows.length : ℚ) * f⌋).toNat + 1 ∧
    (split_data rows f).2.length = rows.length - (⌊(rows.length : ℚ) * f⌋).toNat ∧
    (split_data rows f).1.getLast? = rows[(⌊(rows.length : ℚ) * f⌋).toNat]? ∧
    (split_data rows f).2.head? = rows[(⌊(rows.length : ℚ) * f⌋).toNat]? := by
  have hq0 : (0 : ℚ) ≤ (rows.length : ℚ) * f := by positivity
  have hfl0 : 0 ≤ ⌊(rows.length : ℚ) * f⌋ := Int.floor_nonneg.mpr hq0
  have hcut := split_cut_lt rows f hn hf1
  have htr : pyTrunc ((rows.length : ℚ) * f) = ⌊(rows.length : ℚ) * f⌋ :=
    pyTrunc_of_nonneg hq0
  have htoNat : (⌊(rows.length : ℚ) * f⌋ + 1).toNat
      = (⌊(rows.length : ℚ) * f⌋).toNat + 1 := by omega
  set kN := (⌊(rows.length : ℚ) * f⌋).toNat with hkN
  have h1 : (split_data rows f).1 = rows.take (kN + 1) := by
    simp only [split_data, htr, htoNat, hkN]
  have h2 : (split_data rows f).2 = rows.drop kN := by
    simp only [split_data, htr, hkN]
  refine ⟨h1, h2, ?_, ?_, ?_, ?_⟩
  · rw [h1, List.length_take]; omega
  · rw [h2, List.length_drop]
  · rw [h1, List.getLast?_take]
    have hk : rows[kN + 1 - 1]? = some rows[kN] :=
      List.getElem?_eq_getElem (by omega)
    simp [hk, List.getElem?_eq_getElem hcut]
  · rw [h2, List.head?_drop]

/-- Witness for C2 at a concrete input: 4 rows and `f = 1/2` give `k = 2`,
train `[10, 20, 30]`, test `[30, 40]`, with row 2 shared. -/
theorem split_data_spec_witness :
    (split_data ([10, 20, 30, 40] : List ℚ) (1/2)).1.length = 3 ∧
    (split_data ([10, 20, 30, 40] : List ℚ) (1/2)).2.head? = some 30 := by
  have h := split_data_spec ([10, 20, 30, 40] : List ℚ) (1/2)
    (by norm_num) (by norm_num) (by norm_num)
  refine ⟨?_, ?_⟩
  · rw [h.2.2.1]
    norm_num [Int.floor_eq_iff]
    decide
  · rw [h.2.2.2.2.2]
    norm_num [Int.floor_eq_iff]
    decide

/-- C8 counterexample: `split_data` performs no validation of the train
fraction. At `f = 3/2` on a 2-row table it raises no configuration error and
still returns a train/test split (the whole table as train, empty test). -/
theorem split_data_no_validation_cex :
    split_data ([1, 2] : List ℚ) (3/2) = ([1, 2], []) := by
  have : pyTrunc ((2 : ℚ) * (3/2)) = 3 := by
    rw [pyTrunc_of_nonneg (by norm_num)]
    norm_num [Int.floor_eq_iff]
  simp [split_data, this]

/-- C8 amended: `split_data` does not reject a train fraction outside `(0,1)`;
it always produces a split, and in particular for `f ≥ 1` the train part is
the whole table while for `f ≤ 0` the test part is the whole table. -/
theorem split_data_no_validation {α : Type} (rows : List α) (f : ℚ) :
    (1 ≤ f → (split_data rows f).1 = rows) ∧
    (f ≤ 0 → (split_data rows f).2 = rows) := by
  constructor
  · intro hf
    have hq0 : (0 : ℚ) ≤ (rows.length : ℚ) * f := by positivity
    have hk : (rows.length : ℤ) ≤ ⌊(rows.length : ℚ) * f⌋ := by
      rw [Int.le_floor]
      push_cast
      exact le_mul_of_one_le_right (by positivity) hf
    have : rows.length ≤ (pyTrunc ((rows.length : ℚ) * f) + 1).toNat := by
      rw [pyTrunc_of_nonneg hq0]; omega
    simp only [split_data]
    exact List.take_of_length_le this
  · intro hf
    have hk : pyTrunc ((rows.length : ℚ) * f) ≤ 0 := by
      rcases le_or_lt 0 ((rows.length : ℚ) * f) with h | h
      · have hq : (rows.length : ℚ) * f ≤ 0 :=
          mul_nonpos_of_nonneg_of_nonpos (by positivity) hf
        rw [pyTrunc_of_nonneg h]
        exact Int.floor_nonpos hq
      · have : ¬ (0 : ℚ) ≤ (rows.length : ℚ) * f := not_le.mpr h
        rw [pyTrunc, if_neg this]
        exact Int.ceil_le.mpr (by exact_mod_cast h.le)
    have : (pyTrunc ((rows.length : ℚ) * f)).toNat = 0 := by omega
    simp only [split_data, this, List.drop_zero]

/-- Witness for C8 amended: at `f = 3/2` the train part is the whole table. -/
theorem split_data_no_validation_witness :
    (1 : ℚ) ≤ 3/2 ∧ (split_data ([1, 2] : List ℚ) (3/2)).1 = [1, 2] :=
  ⟨by norm_num, (split_data_no_validation ([1, 2] : List ℚ) (3/2)).1 (by norm_num)⟩

/-! ## The `train` component: scaling and supervised windows

`train` extracts the feature column, fits a `MinMaxScaler` with feature range
`(0, 1)` and transforms the column, then builds supervised pairs with
`for i in range(lookback, len(scaled_train)): x_train.append(scaled_train[i - lookback:i]); y_train.append(scaled_train[i])`.
The scaler divides by the data range, with scikit-learn replacing a zero
range by `1` before dividing (its `_handle_zeros_in_scale`).
-/

/-- Fitted minimum of the training column (scikit-learn `data_min_`). -/
def dataMin : List ℚ → ℚ
  | [] => 0
  | x :: r => r.foldl min x

/-- Fitted maximum of the training column (scikit-learn `data_max_`). -/
def dataMax : List ℚ → ℚ
  | [] => 0
  | x :: r => r.foldl max x

/-- scikit-learn `_handle_zeros_in_scale`: a zero range is replaced by 1. -/
def handleZeros (d : ℚ) : ℚ := if d = 0 then 1 else d

/-- MinMax transform of one value at feature range `(0, 1)`:
`(x - data_min) / handled_range`. -/
def mmTransform (mn scale x : ℚ) : ℚ := (x - mn) / scale

/-- The scaled training column `scaled_train = scaler.fit_transform(train_data)`. -/
def scaledTrain (xs : List ℚ) : List ℚ :=
  xs.map (mmTransform (dataMin xs) (handleZeros (dataMax xs - dataMin xs)))

/-- The supervised-window loop of `train`: for each `i` in
`range(lookback, len(s))`, the window is `s[i - lookback:i]` and the label is
`s[i]`. -/
def buildWindows (s : List ℚ) (L : ℕ) : List (List ℚ × ℚ) :=
  ((List.range s.length).drop L).map (fun i => ((s.take i).drop (i - L), s.getD i 0))

/-- C1: for a scaled sequence of length `n` and lookback `L < n`, the window
construction yields exactly `n - L` pairs; pair `j`'s window is the scaled
values at indices `[j, j + L)` and its label is the scaled value at index
`j + L`. -/
theorem buildWindows_spec (s : List ℚ) (L : ℕ) (h : L < s.length) :
    (buildWindows s L).length = s.length - L ∧
    ∀ j, j < s.length - L →
      (buildWindows s L)[j]? = some ((s.drop j).take L, s.getD (j + L) 0) ∧
      s[j + L]? = some (s.getD (j + L) 0) := by
  constructor
  · simp [buildWindows]
  · intro j hj
    have hjL : L + j < s.length := by omega
    have hrange : ((List.range s.length).drop L)[j]? = some (L + j) := by
      rw [List.getElem?_drop]
      exact List.getElem?_range hjL
    have hij : L + j - L = j := by omega
    have hwin : ((s.take (L + j)).drop (L + j - L)) = (s.drop j).take L := by
      rw [hij, List.drop_take]
      congr 1
      omega
    have hget : s[j + L]? = some s[j + L] := List.getElem?_eq_getElem (by omega)
    constructor
    · simp only [buildWindows, List.getElem?_map, hrange, Option.map_some']
      rw [hwin, Nat.add_comm L j]
    · rw [hget]
      congr 1
      rw [List.getD_eq_getElem?_getD]
      rw [hget]
      rfl

/-- Witness for C1 at the spec scenario: sequence `[1,...,10]`, lookback 3
gives 7 pairs, and pair 0 is `([1,2,3], 4)`. -/
theorem buildWindows_spec_witness :
    (buildWindows [1, 2, 3, 4, 5, 6, 7, 8, 9, 10] 3).length = 7 ∧
    (buildWindows [1, 2, 3, 4, 5, 6, 7, 8, 9, 10] 3)[0]? = some ([1, 2, 3], 4) := by
  have h := buildWindows_spec [1, 2, 3, 4, 5, 6, 7, 8, 9, 10] 3 (by decide)
  refine ⟨h.1, ?_⟩
  rw [(h.2 0 (by decide)).1]
  decide

theorem foldl_min_const (c : ℚ) (r : List ℚ) :
    ∀ a, a = c → (∀ x ∈ r, x = c) → r.foldl min a = c := by
  induction r with
  | nil => intro a ha _; simpa using ha
  | cons b t ih =>
    intro a ha h
    have hb : b = c := h b (List.mem_cons_self b t)
    simp only [List.foldl_cons]
    exact ih (min a b) (by rw [ha, hb, min_self]) fun x hx => h x (List.mem_cons_of_mem b hx)

theorem foldl_max_const (c : ℚ) (r : List ℚ) :
    ∀ a, a = c → (∀ x ∈ r, x = c) → r.foldl max a = c := by
  induction r with
  | nil => intro a ha _; simpa using ha
  | cons b t ih =>
    intro a ha h
    have hb : b = c := h b (List.mem_cons_self b t)
    simp only [List.foldl_cons]
    exact ih (max a b) (by rw [ha, hb, max_self]) fun x hx => h x (List.mem_cons_of_mem b hx)

/-- C6: a constant training column scales to all zeros (the zero range is
special-cased to a division by 1, so no division error occurs). -/
theorem scaledTrain_const (xs : List ℚ) (c : ℚ) (hne : xs ≠ [])
    (hc : ∀ x ∈ xs, x = c) :
    (scaledTrain xs).length = xs.length ∧ ∀ y ∈ scaledTrain xs, y = 0 := by
  obtain ⟨a, r, rfl⟩ := List.exists_cons_of_ne_nil hne
  have ha : a = c := hc a (List.mem_cons_self a r)
  have hr : ∀ x ∈ r, x = c := fun x hx => hc x (List.mem_cons_of_mem a hx)
  have hmin : dataMin (a :: r) = c := by
    simpa [dataMin] using foldl_min_const c r a ha hr
  have hmax : dataMax (a :: r) = c := by
    simpa [dataMax] using foldl_max_const c r a ha hr
  constructor
  · simp [scaledTrain]
  · intro y hy
    simp only [scaledTrain, List.mem_map] at hy
    obtain ⟨x, hx, rfl⟩ := hy
    rw [hc x hx, hmin, hmax]
    simp [mmTransform, handleZeros]

/-- Witness for C6: the constant column `[5, 5, 5]` scales to zeros. -/
theorem scaledTrain_const_witness :
    (scaledTrain [5, 5, 5]).length = 3 ∧ ∀ y ∈ scaledTrain [5, 5, 5], y = 0 := by
  have h := scaledTrain_const [5, 5, 5] 5 (by decide) (by decide)
  exact ⟨h.1, h.2⟩

/-! ## The `train` component: failure paths and persisted artifacts

After reading the train table, `train` performs, in source order:
`scaler.fit_transform` (raises on an empty column), `joblib.dump(scaler, ...)`
(persists the fitted scaler), the window loop, `np.stack(x_train)` (raises
`ValueError` when `x_train` is empty, i.e. when the column has at most
`lookback` values), model fitting, the metrics file write, and finally
`forecaster.save` (persists the keras model).
-/

/-- Embedding of the data-preparation stage of `train`: `none` models an
uncaught exception (empty column at `fit_transform`, or empty window list at
`np.stack`); `some` returns the windowed dataset. -/
def trainRun (xs : List ℚ) (L : ℕ) : Option (List (List ℚ × ℚ)) :=
  if xs.isEmpty then none
  else
    let pairs := buildWindows (scaledTrain xs) L
    if pairs.isEmpty then none else some pairs

/-- Which artifacts a run of `train` persists, and whether it fails, in the
source's order of effects. -/
structure TrainEffects where
  scalerSaved : Bool
  modelSaved : Bool
  metricsSaved : Bool
  failed : Bool
  deriving DecidableEq, Repr

/-- Embedding of `train`'s effect order: the fitted scaler is dumped before
the window loop, so a window-construction failure happens after the scaler
artifact is written; metrics and the keras model are only written after a
successful fit. -/
def trainEffects (xs : List ℚ) (L : ℕ) : TrainEffects :=
  if xs.isEmpty then
    { scalerSaved := false, modelSaved := false, metricsSaved := false, failed := true }
  else if (buildWindows (scaledTrain xs) L).isEmpty then
    { scalerSaved := true, modelSaved := false, metricsSaved := false, failed := true }
  else
    { scalerSaved := true, modelSaved := true, metricsSaved := true, failed := false }

theorem length_scaledTrain (xs : List ℚ) : (scaledTrain xs).length = xs.length := by
  simp [scaledTrain]

theorem buildWindows_eq_nil_of_le (s : List ℚ) (L : ℕ) (h : s.length ≤ L) :
    buildWindows s L = [] := by
  have : (List.range s.length).drop L = [] :=
    List.drop_eq_nil_of_le (by simpa using h)
  simp [buildWindows, this]

/-- C7: a training column with at most `lookback` values produces no
supervised sample, and the run fails with no trained model produced. -/
theorem trainRun_short (xs : List ℚ) (L : ℕ) (h : xs.length ≤ L) :
    buildWindows (scaledTrain xs) L = [] ∧ trainRun xs L = none := by
  have hwin : buildWindows (scaledTrain xs) L = [] :=
    buildWindows_eq_nil_of_le _ _ (by rw [length_scaledTrain]; exact h)
  refine ⟨hwin, ?_⟩
  by_cases hxs : xs.isEmpty
  · simp [trainRun, hxs]
  · simp [trainRun, hxs, hwin]

/-- Witness for C7: a 2-value column with lookback 5 yields no sample and a
failed run. -/
theorem trainRun_short_witness :
    buildWindows (scaledTrain [1, 2]) 5 = [] ∧ trainRun [1, 2] 5 = none :=
  trainRun_short [1, 2] 5 (by decide)

/-- C10 counterexample: on a 2-value column with lookback 5 the run fails
after the scaler has been fitted and dumped, so the failed run leaves the
fitted-scaler artifact behind (contradicting "leaves no fitted-scaler
artifact"). -/
theorem trainEffects_cex :
    trainEffects [1, 2] 5 =
      { scalerSaved := true, modelSaved := false, metricsSaved := false, failed := true } := by
  have hwin : buildWindows (scaledTrain [1, 2]) 5 = [] :=
    buildWindows_eq_nil_of_le _ _ (by rw [length_scaledTrain]; decide)
  simp [trainEffects, hwin]

/-- C10 amended: a failed run of `train` persists no keras-model artifact and
no metrics, but the fitted scaler is dumped before window construction, so a
run that fails there leaves the scaler artifact behind (the scaler artifact
is present exactly when the column was nonempty). -/
theorem trainEffects_failed (xs : List ℚ) (L : ℕ)
    (h : (trainEffects xs L).failed = true) :
    (trainEffects xs L).modelSaved = false ∧
    (trainEffects xs L).metricsSaved = false ∧
    ((trainEffects xs L).scalerSaved = true ↔ xs ≠ []) := by
  by_cases hxs : xs.isEmpty
  · have hnil : xs = [] := List.isEmpty_iff.mp hxs
    simp [trainEffects, hxs, hnil]
  · have hnil : xs ≠ [] := fun hn => hxs (by simp [hn])
    by_cases hwin : (buildWindows (scaledTrain xs) L).isEmpty
    · simp [trainEffects, hxs, hwin, hnil]
    · exfalso
      simp [trainEffects, hxs, hwin] at h
/-- Witness for C10 amended: the failing short-column run saved the scaler but
neither the model nor the metrics. -/
theorem trainEffects_failed_witness :
    (trainEffects [1, 2] 5).failed = true ∧
    (trainEffects [1, 2] 5).modelSaved = false ∧
    (trainEffects [1, 2] 5).metricsSaved = false ∧
    ((trainEffects [1, 2] 5).scalerSaved = true ↔ ([1, 2] : List ℚ) ≠ []) := by
  have hwin : buildWindows (scaledTrain [1, 2]) 5 = [] :=
    buildWindows_eq_nil_of_le _ _ (by rw [length_scaledTrain]; decide)
  have hf : (trainEffects [1, 2] 5).failed = true := by simp [trainEffects, hwin]
  exact ⟨hf, trainEffects_failed [1, 2] 5 hf⟩

/-! ## The `read_raw_data` component

The ingestion scan visits each directory entry in listing order. An entry is
read only when its extension is `.csv`, `.xlsx` or `.xls` and the filename
contains the marker `RAW`; otherwise it is logged and skipped. A read failure
is caught and skipped. For an accepted, readable file the unit is derived
from the filename by
`try: unit = int(name_list[0][-3:].lstrip('0D')) except ValueError: unit = int(name_list[0].split('_')[0][-3:].lstrip('0D'))`
with `name_list = file.split('-')`; a failure of the second attempt is an
uncaught `ValueError` that aborts the scan. The unit is appended to the
running `units` list and the file's rows get `UNIT = unit` and
`TEST = units.count(unit)`.
-/

/-- Python `lstrip('0D')`: drop every leading `'0'` or `'D'` character. -/
def strip0D (s : List Char) : List Char := s.dropWhile (fun c => c == '0' || c == 'D')

/-- Python `s[-n:]`: the last `n` characters (the whole string when shorter). -/
def lastChars (n : ℕ) (s : List Char) : List Char := s.drop (s.length - n)

/-- Python `s.split(sep)[0]`: the characters before the first separator. -/
def firstSeg (sep : Char) (s : List Char) : List Char := s.takeWhile (fun c => c != sep)

/-- ASCII whitespace that Python `int()` strips around a string argument. -/
def isPyWs (c : Char) : Bool :=
  c == ' ' || c == '\t' || c == '\n' || c == '\x0b' || c == '\x0c' || c == '\r'

/-- Continuation of the digit part of a Python integer literal after an
accepted digit: further digits, with a single underscore allowed only
between two digits (PEP 515). -/
def digitTail : List Char → Bool
  | [] => true
  | '_' :: c :: rest => c.isDigit && digitTail rest
  | c :: rest => c.isDigit && digitTail rest

/-- The digit part of a Python integer literal: at least one digit, single
underscores only between digits (so `3_2` is accepted, `_3`, `3_` and `3__2`
are not). -/
def digitPart : List Char → Bool
  | [] => false
  | c :: rest => c.isDigit && digitTail rest

/-- Decimal value of a digit part, underscores removed. -/
def digitsVal (s : List Char) : ℕ :=
  (s.filter (fun c => c != '_')).foldl (fun a c => 10 * a + (c.toNat - 48)) 0

/-- Python `int()` on an ASCII string: surrounding whitespace stripped, one
optional sign, then a PEP 515 digit part; anything else is a `ValueError`
(`none`). In particular `int("3_2") = 32` succeeds. -/
def pyIntStr (s : List Char) : Option ℤ :=
  let t := ((s.dropWhile isPyWs).reverse.dropWhile isPyWs).reverse
  match t with
  | '+' :: rest => if digitPart rest then some (digitsVal rest : ℤ) else none
  | '-' :: rest => if digitPart rest then some (-(digitsVal rest : ℤ)) else none
  | rest => if digitPart rest then some (digitsVal rest : ℤ) else none

/-- The unit-extraction of `read_raw_data`: first attempt on the segment
before `-`, and on a `ValueError` a second attempt on the part of that
segment before `_`. An uncaught failure of both is `none`. -/
def extractUnit (file : String) : Option ℤ :=
  let seg := firstSeg '-' file.data
  match pyIntStr (strip0D (lastChars 3 seg)) with
  | some u => some u
  | none => pyIntStr (strip0D (lastChars 3 (firstSeg '_' seg)))

/-- A needle occurs contiguously in the haystack (Python `needle in hay`). -/
def containsSeq (needle hay : List Char) : Bool :=
  (List.range (hay.length + 1)).any (fun i => ((hay.drop i).take needle.length) == needle)

/-- Python `str.endswith`. -/
def hasEnding (pat s : List Char) : Bool :=
  s.drop (s.length - pat.length) == pat

/-- The acceptance test of `read_raw_data`: a recognized tabular extension
and the raw-data marker `RAW` somewhere in the filename. -/
def acceptedName (file : String) : Bool :=
  (hasEnding ".csv".data file.data || hasEnding ".xlsx".data file.data
    || hasEnding ".xls".data file.data) && containsSeq "RAW".data file.data

/-- One directory entry: the filename and either its parsed row payloads or
`none` for unreadable content. -/
structure Entry where
  name : String
  rows : Option (List ℕ)
  deriving Repr, DecidableEq

/-- Ingestion state: the running `units` list, the combined table of
`(payload, UNIT, TEST)` rows, and the per-file `(UNIT, TEST)` label log. -/
structure ScanState where
  units : List ℤ
  table : List (ℕ × ℤ × ℕ)
  labels : List (ℤ × ℕ)
  deriving Repr, DecidableEq

/-- Processing of one directory entry: rejected or unreadable entries are
skipped, an unlabelable accepted entry aborts the scan (`none`), and a
labeled entry appends its unit and its tagged rows. -/
def readStep (st : ScanState) (e : Entry) : Option ScanState :=
  if acceptedName e.name then
    match e.rows with
    | none => some st
    | some rs =>
      match extractUnit e.name with
      | none => none
      | some u =>
        let units' := st.units ++ [u]
        let t := units'.count u
        some { units := units',
               table := st.table ++ rs.map (fun r => (r, u, t)),
               labels := st.labels ++ [(u, t)] }
  else some st

/-- The whole directory scan of `read_raw_data`. -/
def readScan (es : List Entry) : Option ScanState :=
  es.foldlM readStep { units := [], table := [], labels := [] }

/-- The `TEST` invariant: for every unit, the label log records the test
indices `1, 2, ..., count` in visitation order. -/
def ScanInv (st : ScanState) : Prop :=
  ∀ u : ℤ, (st.labels.filter (fun p => p.1 == u)).map Prod.snd
    = List.range' 1 (st.units.count u)

theorem readStep_inv {st st1 : ScanState} {e : Entry}
    (h : readStep st e = some st1) (hinv : ScanInv st) : ScanInv st1 := by
  unfold readStep at h
  by_cases hacc : acceptedName e.name
  · rw [if_pos hacc] at h
    cases hrows : e.rows with
    | none => rw [hrows] at h; cases h; exact hinv
    | some rs =>
      rw [hrows] at h
      cases hunit : extractUnit e.name with
      | none => rw [hunit] at h; cases h
      | some u =>
        rw [hunit] at h
        cases h
        intro v
        rw [List.filter_append, List.map_append]
        by_cases hv : v = u
        · subst hv
          have hfil : List.filter (fun p => p.1 == v) [(v, (st.units ++ [v]).count v)]
              = [(v, (st.units ++ [v]).count v)] := by simp
          have hcv : (st.units ++ [v]).count v = st.units.count v + 1 := by simp
          rw [hfil, hcv, hinv v, List.range'_1_concat]
          simp [Nat.add_comm]
        · have hfil2 : List.filter (fun p => p.1 == v) [(u, (st.units ++ [u]).count u)]
              = [] := by simp [Ne.symm hv]
          have hcv : (st.units ++ [u]).count v = st.units.count v := by
            simp [List.count_append, List.count_cons, hv]
          rw [hfil2, hcv, hinv v]
          simp
  · rw [if_neg hacc] at h
    cases h
    exact hinv

theorem readScan_inv_aux (es : List Entry) :
    ∀ st st', ScanInv st → List.foldlM readStep st es = some st' → ScanInv st' := by
  induction es with
  | nil =>
    intro st st' hinv h
    simp only [List.foldlM_nil] at h
    cases h
    exact hinv
  | cons e es ih =>
    intro st st' hinv h
    simp only [List.foldlM_cons] at h
    cases hstep : readStep st e with
    | none => rw [hstep] at h; cases h
    | some st1 =>
      rw [hstep] at h
      exact ih st1 st' (readStep_inv hstep hinv) h

/-- C3: after a successful ingestion scan, for every unit `u` the `TEST`
values recorded for the accepted files carrying `u`, in visitation order,
are exactly `1, 2, ..., count(u)`: the i-th accepted file with unit `u`
gets `TEST = i`. -/
theorem readScan_test_spec (es : List Entry) (st : ScanState)
    (h : readScan es = some st) (u : ℤ) :
    (st.labels.filter (fun p => p.1 == u)).map Prod.snd
      = List.range' 1 (st.units.count u) := by
  have hinit : ScanInv { units := [], table := [], labels := [] } := by
    intro v; simp
  exact readScan_inv_aux es _ st hinit h u

/-- The concrete scan used as witness: three accepted files carry unit 13
(the third via the underscore fallback, since `"RAW"` has no digit part),
one file is rejected, one carries unit 7. -/
def esW : List Entry :=
  [{ name := "U013-RAW.csv", rows := some [10] },
   { name := "007-RAW.csv", rows := some [20] },
   { name := "D013_RAW-2.csv", rows := some [30] },
   { name := "notes.txt", rows := some [40] },
   { name := "D013-RAW.xlsx", rows := some [50] }]

/-- The state that the witness scan reaches. -/
def stW : ScanState :=
  { units := [13, 7, 13, 13],
    table := [(10, 13, 1), (20, 7, 1), (30, 13, 2), (50, 13, 3)],
    labels := [(13, 1), (7, 1), (13, 2), (13, 3)] }

/-- Witness for C3: in the concrete scan the three files with unit 13 get
`TEST` values `1, 2, 3` in order. -/
theorem readScan_test_spec_witness :
    (stW.labels.filter (fun p => p.1 == 13)).map Prod.snd
        = List.range' 1 (stW.units.count 13) ∧
    List.range' 1 (stW.units.count 13) = [1, 2, 3] :=
  ⟨readScan_test_spec esW stW (by decide) 13, by decide⟩

/-- Step 1 of the spec's unit rule: split the filename on `-`, take the
first segment, take its last 3 characters, strip leading `0`/`D`, parse as
integer. -/
def specAttempt1 (file : String) : Option ℤ :=
  pyIntStr (strip0D (lastChars 3 (firstSeg '-' file.data)))

/-- Step 2 of the spec's unit rule: split the first segment on `_`, take the
first sub-segment, take its last 3 characters, strip leading `0`/`D`, parse
as integer. -/
def specAttempt2 (file : String) : Option ℤ :=
  pyIntStr (strip0D (lastChars 3 (firstSeg '_' (firstSeg '-' file.data))))

/-- C4: the unit extraction of `read_raw_data` is exactly the two-stage rule:
step 1, and step 2 only on a step-1 parse failure; `"U013-run1.csv"` yields
unit 13. (With PEP 515, `"U013_2-RAW.csv"` already succeeds at step 1 with
`int("3_2") = 32`, so the fallback does not fire there.) -/
theorem extractUnit_spec :
    (∀ f : String,
      ((specAttempt1 f).isSome → extractUnit f = specAttempt1 f) ∧
      (specAttempt1 f = none → extractUnit f = specAttempt2 f)) ∧
    extractUnit "U013-run1.csv" = some 13 ∧
    extractUnit "U013_2-RAW.csv" = some 32 := by
  constructor
  · intro f
    constructor
    · intro h
      obtain ⟨u, hu⟩ := Option.isSome_iff_exists.mp h
      simp only [extractUnit, specAttempt1] at hu ⊢
      rw [hu]
    · intro h
      simp only [extractUnit, specAttempt1] at h ⊢
      rw [h]
      rfl
  · exact ⟨by decide, by decide⟩

/-- C9: a directory entry changes the combined table only if its extension
and the `RAW` marker are accepted and its content was readable; a rejected or
unreadable entry is skipped with the state unchanged, never aborting the
scan. -/
theorem readStep_accept_spec (st : ScanState) (e : Entry) :
    ((acceptedName e.name = false ∨ e.rows = none) → readStep st e = some st) ∧
    (∀ st', readStep st e = some st' → st'.table ≠ st.table →
      acceptedName e.name = true ∧ e.rows.isSome = true) := by
  constructor
  · intro h
    rcases h with h | h
    · simp [readStep, h]
    · by_cases hacc : acceptedName e.name
      · simp [readStep, hacc, h]
      · simp [readStep, hacc]
  · intro st' hstep htab
    by_cases hacc : acceptedName e.name
    · refine ⟨hacc, ?_⟩
      cases hrows : e.rows with
      | none =>
        exfalso
        rw [readStep, if_pos hacc, hrows] at hstep
        cases hstep
        exact htab rfl
      | some rs => simp [hrows]
    · exfalso
      rw [readStep, if_neg hacc] at hstep
      cases hstep
      exact htab rfl

/-- Witness for C9: an entry without the marker and extension is skipped with
the scan state unchanged. -/
theorem readStep_accept_spec_witness :
    readStep { units := [], table := [], labels := [] }
        { name := "notes.txt", rows := some [1] }
      = some { units := [], table := [], labels := [] } :=
  (readStep_accept_spec { units := [], table := [], labels := [] }
    { name := "notes.txt", rows := some [1] }).1 (Or.inl (by decide))

/-! ## The `train` fit loop: early stopping

`train` fits with `keras.callbacks.EarlyStopping(patience=patience,
monitor='val_loss', mode='min', restore_best_weights=True)`. The callback
semantics (modelled from Keras): track the best validation loss seen and the
weights of its epoch; an epoch improves when its loss is strictly below the
best; a non-improving epoch increments a wait counter (reset on
improvement), and when the counter reaches `patience`, training halts after
that epoch and the best epoch's weights are restored.
-/

/-- State of the early-stopping callback: the best validation loss so far
(`none` is the initial infinity), the epoch that achieved it (whose weights
are the restore snapshot), and the non-improvement counter. -/
structure ESState where
  best : Option ℚ
  bestEpoch : ℕ
  wait : ℕ
  deriving Repr, DecidableEq

/-- Whether a validation loss improves on the best seen so far. -/
def improves : Option ℚ → ℚ → Bool
  | none, _ => true
  | some b, v => decide (v < b)

/-- One epoch of the callback at epoch `i` with validation loss `v`: the new
state, and whether training stops after this epoch. -/
def esStep (p i : ℕ) (v : ℚ) (st : ESState) : ESState × Bool :=
  if improves st.best v then ({ best := some v, bestEpoch := i, wait := 0 }, false)
  else ({ best := st.best, bestEpoch := st.bestEpoch, wait := st.wait + 1 },
        decide (p ≤ st.wait + 1))

/-- The epoch loop from epoch `i` onward: the final callback state, the
total number of epochs run, and whether early stopping fired. -/
def esLoop (p : ℕ) : ℕ → ESState → List ℚ → ESState × ℕ × Bool
  | i, st, [] => (st, i, false)
  | i, st, v :: rest =>
    match esStep p i v st with
    | (st1, true) => (st1, i + 1, true)
    | (st1, false) => esLoop p (i + 1) st1 rest

/-- The early-stopping run of the fit loop over the per-epoch validation
losses with patience `p`. -/
def earlyStopping (p : ℕ) (losses : List ℚ) : ESState × ℕ × Bool :=
  esLoop p 0 { best := none, bestEpoch := 0, wait := 0 } losses

/-- Callback-state invariant after the processed epochs `past`: the wait
counter is live, and the best value is the minimum of `past`, achieved at
`bestEpoch`. -/
def GoodSt (p : ℕ) (past : List ℚ) (st : ESState) : Prop :=
  st.wait < p ∧
  ((past = [] ∧ st.best = none) ∨
   (∃ b, st.best = some b ∧ st.bestEpoch < past.length ∧
     past.getD st.bestEpoch 0 = b ∧ ∀ x ∈ past, b ≤ x))

theorem esLoop_append_stop (p : ℕ) :
    ∀ (l₁ : List ℚ) (l₂ : List ℚ) (i : ℕ) (st st1 : ESState) (r : ℕ),
    esLoop p i st l₁ = (st1, r, true) →
    esLoop p i st (l₁ ++ l₂) = (st1, r, true) := by
  intro l₁
  induction l₁ with
  | nil =>
    intro l₂ i st st1 r h
    simp [esLoop] at h
  | cons v rest ih =>
    intro l₂ i st st1 r h
    rw [List.cons_append]
    rw [esLoop] at h ⊢
    cases hstep : esStep p i v st with
    | mk st2 stop =>
      rw [hstep] at h
      cases stop with
      | true => exact h
      | false => exact ih l₂ (i + 1) st2 st1 r h

theorem esLoop_append_go (p : ℕ) :
    ∀ (l₁ : List ℚ) (l₂ : List ℚ) (i : ℕ) (st st1 : ESState) (r : ℕ),
    esLoop p i st l₁ = (st1, r, false) →
    esLoop p i st (l₁ ++ l₂) = esLoop p (i + l₁.length) st1 l₂ := by
  intro l₁
  induction l₁ with
  | nil =>
    intro l₂ i st st1 r h
    simp only [esLoop] at h
    cases h
    simp
  | cons v rest ih =>
    intro l₂ i st st1 r h
    rw [List.cons_append]
    rw [esLoop] at h ⊢
    cases hstep : esStep p i v st with
    | mk st2 stop =>
      rw [hstep] at h
      cases stop with
      | true => simp at h
      | false =>
        have hrec := ih l₂ (i + 1) st2 st1 r h
        have harith : i + 1 + rest.length = i + (v :: rest).length := by
          simp [List.length_cons]
          omega
        rw [harith] at hrec
        exact hrec

theorem esLoop_stops (p : ℕ) :
    ∀ (rest : List ℚ) (i : ℕ) (st : ESState) (b : ℚ), st.best = some b →
    st.wait < p → p - st.wait ≤ rest.length →
    (∀ x ∈ rest.take (p - st.wait), b ≤ x) →
    ∃ w ran, esLoop p i st rest
        = ({ best := some b, bestEpoch := st.bestEpoch, wait := w }, ran, true) ∧
      i < ran ∧ ran ≤ i + (p - st.wait) := by
  intro rest
  induction rest with
  | nil =>
    intro i st b hb hw hlen hall
    exfalso
    simp at hlen
    omega
  | cons v rest ih =>
    intro i st b hb hw hlen hall
    obtain ⟨q, hq⟩ : ∃ q, p - st.wait = q + 1 := ⟨p - st.wait - 1, by omega⟩
    have hbv : b ≤ v := by
      refine hall v ?_
      rw [hq, List.take_succ_cons]
      exact List.mem_cons_self v _
    have himp : improves st.best v = false := by
      rw [hb]
      simp only [improves]
      exact decide_eq_false (not_lt.mpr hbv)
    have hstep : esStep p i v st
        = ({ best := st.best, bestEpoch := st.bestEpoch, wait := st.wait + 1 },
           decide (p ≤ st.wait + 1)) := by
      rw [esStep, himp]
      simp
    by_cases hstop : p ≤ st.wait + 1
    · refine ⟨st.wait + 1, i + 1, ?_, by omega, by omega⟩
      rw [esLoop, hstep, hb, decide_eq_true hstop]
    · have hwl : st.wait + 1 < p := by omega
      have hlen' : q ≤ rest.length := by
        rw [hq] at hlen
        simp [List.length_cons] at hlen
        omega
      have hallq : ∀ x ∈ rest.take q, b ≤ x := by
        intro x hx
        refine hall x ?_
        rw [hq, List.take_succ_cons]
        exact List.mem_cons_of_mem v hx
      have hrec := ih (i + 1)
        { best := some b, bestEpoch := st.bestEpoch, wait := st.wait + 1 } b rfl
        (show st.wait + 1 < p from hwl)
        (show p - (st.wait + 1) ≤ rest.length by omega)
        (show ∀ x ∈ rest.take (p - (st.wait + 1)), b ≤ x by
          have hpq : p - (st.wait + 1) = q := by omega
          rw [hpq]
          exact hallq)
      obtain ⟨w, ran, heq, hlt, hle⟩ := hrec
      have hle2 : ran ≤ i + 1 + (p - (st.wait + 1)) := hle
      refine ⟨w, ran, ?_, by omega, by omega⟩
      rw [esLoop, hstep, hb, decide_eq_false hstop]
      exact heq

theorem esLoop_shift (p : ℕ) (past : List ℚ) (v : ℚ) (rest : List ℚ)
    (st st1 : ESState)
    (hloop : esLoop p past.length st (v :: rest)
      = esLoop p (past.length + 1) st1 rest)
    (hres :
      (∃ st' ran, esLoop p (past ++ [v]).length st1 rest = (st', ran, false) ∧
        ran = (past ++ [v]).length + rest.length ∧
        GoodSt p ((past ++ [v]) ++ rest) st') ∨
      (∃ st' ran, esLoop p (past ++ [v]).length st1 rest = (st', ran, true) ∧
        (past ++ [v]).length < ran ∧ ran ≤ (past ++ [v]).length + rest.length ∧
        ∃ b, st'.best = some b ∧ st'.bestEpoch + 1 < ran ∧
          ((past ++ [v]) ++ rest).getD st'.bestEpoch 0 = b ∧
          ∀ x ∈ ((past ++ [v]) ++ rest).take ran, b ≤ x)) :
    (∃ st' ran, esLoop p past.length st (v :: rest) = (st', ran, false) ∧
        ran = past.length + (v :: rest).length ∧
        GoodSt p (past ++ v :: rest) st') ∨
    (∃ st' ran, esLoop p past.length st (v :: rest) = (st', ran, true) ∧
        past.length < ran ∧ ran ≤ past.length + (v :: rest).length ∧
        ∃ b, st'.best = some b ∧ st'.bestEpoch + 1 < ran ∧
          (past ++ v :: rest).getD st'.bestEpoch 0 = b ∧
          ∀ x ∈ (past ++ v :: rest).take ran, b ≤ x) := by
  have hlen1 : (past ++ [v]).length = past.length + 1 := by simp
  have happ : (past ++ [v]) ++ rest = past ++ v :: rest := by simp
  rw [hlen1, happ] at hres
  rcases hres with ⟨st', ran, heq, hran, hgood⟩ |
    ⟨st', ran, heq, h1, h2, b, hbs, hbe2, hbv2, hall2⟩
  · left
    refine ⟨st', ran, ?_, ?_, hgood⟩
    · rw [hloop]
      exact heq
    · simp [List.length_cons]
      omega
  · right
    refine ⟨st', ran, ?_, by omega, ?_, b, hbs, hbe2, hbv2, hall2⟩
    · rw [hloop]
      exact heq
    · simp [List.length_cons]
      omega

theorem esLoop_cases (p : ℕ) (hp : 1 ≤ p) :
    ∀ (rest past : List ℚ) (st : ESState), GoodSt p past st →
    (∃ st' ran, esLoop p past.length st rest = (st', ran, false) ∧
        ran = past.length + rest.length ∧ GoodSt p (past ++ rest) st') ∨
    (∃ st' ran, esLoop p past.length st rest = (st', ran, true) ∧
        past.length < ran ∧ ran ≤ past.length + rest.length ∧
        ∃ b, st'.best = some b ∧ st'.bestEpoch + 1 < ran ∧
          (past ++ rest).getD st'.bestEpoch 0 = b ∧
          ∀ x ∈ (past ++ rest).take ran, b ≤ x) := by
  intro rest
  induction rest with
  | nil =>
    intro past st hst
    left
    exact ⟨st, past.length, by simp [esLoop], by simp, by simpa using hst⟩
  | cons v rest ih =>
    intro past st hst
    obtain ⟨hwait, hdis⟩ := hst
    rcases hdis with ⟨hpastnil, hnone⟩ | ⟨b, hb, hbe, hbv, hall⟩
    · -- initial state: the first epoch always improves
      subst hpastnil
      have hstep : esStep p (List.length ([] : List ℚ)) v st
          = ({ best := some v, bestEpoch := 0, wait := 0 }, false) := by
        rw [esStep, hnone]
        rfl
      have hloop : esLoop p (List.length ([] : List ℚ)) st (v :: rest)
          = esLoop p (List.length ([] : List ℚ) + 1)
              { best := some v, bestEpoch := 0, wait := 0 } rest := by
        rw [esLoop, hstep]
      have hg : GoodSt p [v] { best := some v, bestEpoch := 0, wait := 0 } := by
        refine ⟨hp, Or.inr ⟨v, rfl, by simp, rfl, ?_⟩⟩
        intro x hx
        simp at hx
        subst hx
        exact le_refl x
      have hres := ih [v] { best := some v, bestEpoch := 0, wait := 0 } hg
      have h0 : (([] : List ℚ) ++ [v]) = [v] := by simp
      rw [← h0] at hres
      exact esLoop_shift p [] v rest st _ hloop hres
    · by_cases hvb : v < b
      · -- improvement step
        have himp : improves st.best v = true := by
          rw [hb]
          simp [improves, hvb]
        have hstep : esStep p past.length v st
            = ({ best := some v, bestEpoch := past.length, wait := 0 }, false) := by
          rw [esStep, himp]
          simp
        have hloop : esLoop p past.length st (v :: rest)
            = esLoop p (past.length + 1)
                { best := some v, bestEpoch := past.length, wait := 0 } rest := by
          rw [esLoop, hstep]
        have hg : GoodSt p (past ++ [v])
            { best := some v, bestEpoch := past.length, wait := 0 } := by
          refine ⟨hp, Or.inr ⟨v, rfl, by simp, ?_, ?_⟩⟩
          · rw [List.getD_eq_getElem?_getD, List.getElem?_concat_length]
            rfl
          · intro x hx
            rcases List.mem_append.mp hx with hxp | hxv
            · exact le_trans hvb.le (hall x hxp)
            · simp at hxv
              subst hxv
              exact le_refl x
        exact esLoop_shift p past v rest st _ hloop (ih (past ++ [v]) _ hg)
      · -- non-improvement step
        have himp : improves st.best v = false := by
          rw [hb]
          simp [improves, hvb]
        have hbvle : b ≤ v := not_lt.mp hvb
        have hstep : esStep p past.length v st
            = ({ best := st.best, bestEpoch := st.bestEpoch, wait := st.wait + 1 },
               decide (p ≤ st.wait + 1)) := by
          rw [esStep, himp]
          simp
        have hgetD : (past ++ v :: rest).getD st.bestEpoch 0
            = past.getD st.bestEpoch 0 := by
          rw [List.getD_eq_getElem?_getD, List.getD_eq_getElem?_getD,
            List.getElem?_append_left hbe]
        by_cases hstop : p ≤ st.wait + 1
        · -- patience exhausted: stop after this epoch
          right
          have hloop : esLoop p past.length st (v :: rest)
              = ({ best := st.best, bestEpoch := st.bestEpoch, wait := st.wait + 1 },
                 past.length + 1, true) := by
            rw [esLoop, hstep, decide_eq_true hstop]
          refine ⟨_, past.length + 1, hloop, by omega, ?_, b, hb, ?_, ?_, ?_⟩
          · simp [List.length_cons]
          · show st.bestEpoch + 1 < past.length + 1
            omega
          · show (past ++ v :: rest).getD st.bestEpoch 0 = b
            rw [hgetD]
            exact hbv
          · show ∀ x ∈ (past ++ v :: rest).take (past.length + 1), b ≤ x
            have htake : (past ++ v :: rest).take (past.length + 1)
                = past ++ [v] := by
              rw [List.take_add (past ++ v :: rest) past.length 1,
                List.take_left, List.drop_left]
              simp
            rw [htake]
            intro x hx
            rcases List.mem_append.mp hx with hxp | hxv
            · exact hall x hxp
            · simp at hxv
              subst hxv
              exact hbvle
        · -- wait still below patience: continue
          have hloop : esLoop p past.length st (v :: rest)
              = esLoop p (past.length + 1)
                  { best := st.best, bestEpoch := st.bestEpoch, wait := st.wait + 1 }
                  rest := by
            rw [esLoop, hstep, decide_eq_false hstop]
          have hg : GoodSt p (past ++ [v])
              { best := st.best, bestEpoch := st.bestEpoch, wait := st.wait + 1 } := by
            refine ⟨by simp only; omega, Or.inr ⟨b, hb, by simp; omega, ?_, ?_⟩⟩
            · show (past ++ [v]).getD st.bestEpoch 0 = b
              rw [List.getD_eq_getElem?_getD, List.getElem?_append_left hbe,
                ← List.getD_eq_getElem?_getD]
              exact hbv
            · intro x hx
              rcases List.mem_append.mp hx with hxp | hxv
              · exact hall x hxp
              · simp at hxv
                subst hxv
                exact hbvle
          exact esLoop_shift p past v rest st _ hloop (ih (past ++ [v]) _ hg)

theorem getD_mem_of_lt (l : List ℚ) (j : ℕ) (h : j < l.length) : l.getD j 0 ∈ l := by
  rw [List.getD_eq_getElem?_getD, List.getElem?_eq_getElem h, Option.getD_some]
  exact List.getElem_mem h

theorem getD_take_of_lt (l : List ℚ) (e j : ℕ) (h : j < e) :
    (l.take e).getD j 0 = l.getD j 0 := by
  rw [List.getD_eq_getElem?_getD, List.getD_eq_getElem?_getD,
    List.getElem?_take_of_lt h]

/-- C5: if the validation losses fail to improve for `patience` consecutive
epochs starting at epoch `e` (each loss in the window is at least some
earlier loss), the fit loop fires early stopping at or before epoch
`e + patience`; the restored snapshot is the epoch of the best observed
validation loss, which is strictly before the final epoch. -/
theorem earlyStopping_spec (p e : ℕ) (losses : List ℚ)
    (hp : 1 ≤ p) (he : 1 ≤ e) (hlen : e + p ≤ losses.length)
    (H : ∀ i, e ≤ i → i < e + p →
      ∃ j, j < e ∧ losses.getD j 0 ≤ losses.getD i 0) :
    (earlyStopping p losses).2.2 = true ∧
    (earlyStopping p losses).2.1 ≤ e + p ∧
    (earlyStopping p losses).1.bestEpoch + 1 < (earlyStopping p losses).2.1 ∧
    ∃ b, (earlyStopping p losses).1.best = some b ∧
      losses.getD (earlyStopping p losses).1.bestEpoch 0 = b ∧
      ∀ x ∈ losses.take (earlyStopping p losses).2.1, b ≤ x := by
  have htlen : (losses.take e).length = e := by
    rw [List.length_take]
    omega
  have hinit : GoodSt p [] { best := none, bestEpoch := 0, wait := 0 } :=
    ⟨show (0 : ℕ) < p by omega, Or.inl ⟨rfl, rfl⟩⟩
  have hsplit : losses.take e ++ losses.drop e = losses :=
    List.take_append_drop e losses
  have hcases := esLoop_cases p hp (losses.take e) [] _ hinit
  simp only [List.nil_append, List.length_nil, Nat.zero_add] at hcases
  rcases hcases with ⟨st_e, ran_e, heq, hran, hgood⟩ |
    ⟨st', ran, heq, h1, h2, b, hbs, hbe2, hbv2, hall2⟩
  · -- the first e epochs complete; patience then runs out inside the window
    obtain ⟨hwt, hdis⟩ := hgood
    rcases hdis with ⟨hnil, _⟩ | ⟨b, hbs, hbe, hbv, hall⟩
    · exfalso
      rw [hnil] at htlen
      simp at htlen
      omega
    rw [htlen] at hbe
    have hwin : ∀ j, j < p → b ≤ (losses.drop e).getD j 0 := by
      intro j hj
      obtain ⟨j', hj', hcmp⟩ := H (e + j) (by omega) (by omega)
      have hb1 : b ≤ losses.getD j' 0 := by
        have hmem : losses.getD j' 0 ∈ losses.take e := by
          rw [← getD_take_of_lt losses e j' hj']
          exact getD_mem_of_lt _ j' (by rw [htlen]; omega)
        exact hall _ hmem
      have hdg : (losses.drop e).getD j 0 = losses.getD (e + j) 0 := by
        rw [List.getD_eq_getElem?_getD, List.getD_eq_getElem?_getD,
          List.getElem?_drop]
      rw [hdg]
      exact le_trans hb1 hcmp
    have hdlen : (losses.drop e).length = losses.length - e :=
      List.length_drop e losses
    have hstops := esLoop_stops p (losses.drop e) e st_e b hbs hwt
      (by omega)
      (by
        intro x hx
        rw [List.mem_take_iff_getElem] at hx
        obtain ⟨j, hj, hxj⟩ := hx
        have hjp : j < p := by omega
        have hjd : j < (losses.drop e).length := by omega
        have hb2 := hwin j hjp
        rw [List.getD_eq_getElem?_getD, List.getElem?_eq_getElem hjd,
          Option.getD_some, hxj] at hb2
        exact hb2)
    obtain ⟨w, ran, heqs, hlt, hle⟩ := hstops
    have hfull := esLoop_append_go p (losses.take e) (losses.drop e) 0
      { best := none, bestEpoch := 0, wait := 0 } st_e ran_e heq
    rw [hsplit, htlen, Nat.zero_add] at hfull
    have hrun : earlyStopping p losses
        = ({ best := some b, bestEpoch := st_e.bestEpoch, wait := w }, ran, true) := by
      rw [earlyStopping, hfull]
      exact heqs
    rw [hrun]
    refine ⟨rfl, show ran ≤ e + p by omega,
      show st_e.bestEpoch + 1 < ran by omega, b, rfl, ?_, ?_⟩
    · show losses.getD st_e.bestEpoch 0 = b
      rw [← getD_take_of_lt losses e st_e.bestEpoch hbe]
      exact hbv
    · show ∀ x ∈ losses.take ran, b ≤ x
      have hre : ran = e + (ran - e) := by omega
      rw [hre, List.take_add]
      intro x hx
      rcases List.mem_append.mp hx with hxp | hxd
      · exact hall x hxp
      · rw [List.mem_take_iff_getElem] at hxd
        obtain ⟨j, hj, hxj⟩ := hxd
        have hjp : j < p := by omega
        have hjd : j < (losses.drop e).length := by omega
        have hb2 := hwin j hjp
        rw [List.getD_eq_getElem?_getD, List.getElem?_eq_getElem hjd,
          Option.getD_some, hxj] at hb2
        exact hb2
  · -- the loop already stops within the first e epochs
    have hfull := esLoop_append_stop p (losses.take e) (losses.drop e) 0
      { best := none, bestEpoch := 0, wait := 0 } st' ran heq
    rw [hsplit] at hfull
    have hrun : earlyStopping p losses = (st', ran, true) := by
      rw [earlyStopping]
      exact hfull
    rw [htlen] at h2
    have hbe3 : st'.bestEpoch < e := by omega
    rw [hrun]
    refine ⟨rfl, show ran ≤ e + p by omega, hbe2, b, hbs, ?_, ?_⟩
    · show losses.getD st'.bestEpoch 0 = b
      rw [← getD_take_of_lt losses e st'.bestEpoch hbe3]
      exact hbv2
    · show ∀ x ∈ losses.take ran, b ≤ x
      have htt : losses.take ran = (losses.take e).take ran := by
        rw [List.take_take, Nat.min_eq_left (by omega)]
      rw [htt]
      exact hall2

/-- Witness for C5: with patience 2 and validation losses `[1, 2, 2, 2]`,
nothing improves from epoch 1 on; the loop stops within 3 epochs and the
restored snapshot is epoch 0, the best epoch, not the final one. -/
theorem earlyStopping_spec_witness :
    (earlyStopping 2 [1, 2, 2, 2]).2.2 = true ∧
    (earlyStopping 2 [1, 2, 2, 2]).2.1 ≤ 1 + 2 ∧
    (earlyStopping 2 [1, 2, 2, 2]).1.bestEpoch + 1
      < (earlyStopping 2 [1, 2, 2, 2]).2.1 ∧
    ∃ b, (earlyStopping 2 [1, 2, 2, 2]).1.best = some b ∧
      ([1, 2, 2, 2] : List ℚ).getD (earlyStopping 2 [1, 2, 2, 2]).1.bestEpoch 0 = b ∧
      ∀ x ∈ ([1, 2, 2, 2] : List ℚ).take (earlyStopping 2 [1, 2, 2, 2]).2.1,
        b ≤ x := by
  apply earlyStopping_spec 2 1 [1, 2, 2, 2] (by norm_num) (by norm_num) (by decide)
  intro i hi hip
  refine ⟨0, by norm_num, ?_⟩
  interval_cases i
  · decide
  · decide
